import Mathlib

set_option maxRecDepth 8192

/-!
Verification of the in-circuit elliptic-curve arithmetic engine of the
`orchard` repository (`src/circuit/gadget/ecc/chip.rs`).

The chip dispatcher (`EccChip`, `EccLoaded`, `EccFixedPoint`, `get_fixed`,
`load`) is present in the sources. The value-level bodies of the gadget
submodules (`add`, `add_complete`, `double`, `mul`, `mul_fixed`,
`mul_fixed_short`, `witness_point`, `witness_scalar_var`, ...) and the
`constants` module are declared in `chip.rs` but their files are not part of
the sources; the corresponding definitions below are modelled from the
specification (each such definition says so in its doc comment).

The reference group computation used by the functional-correctness claims is
Mathlib's group of nonsingular rational points on a Weierstrass curve in
affine coordinates (`WeierstrassCurve.Affine.Point`).
-/

namespace Orchard

/-- Window alphabet size for fixed-base multiplication.  From the source:
`EccConfig.lagrange_coeffs` is an array of `constants::H` fixed columns and
`EccChip::configure` fills it with exactly eight columns, so `H = 8` and the
window width is 3 bits. -/
def H : ℕ := 8

/-- Modelled from the spec: `constants::NUM_WINDOWS` is not under `src/`.
Spec section 4.7: the full-width windowing uses `⌈255 / 3⌉ = 85` windows. -/
def NUM_WINDOWS : ℕ := 85

/-- Modelled from the spec: `constants::NUM_WINDOWS_SHORT` is not under
`src/`.  The short windowing covers a 64-bit magnitude with 3-bit windows,
hence `⌈66 / 3⌉ = 22` windows. -/
def NUM_WINDOWS_SHORT : ℕ := 22

/-- The additive offset compensating for the scalar field being slightly
smaller than `2^255`.  The value is pinned by the test in `chip.rs`
(`let t_q = 45560315531506369815346746415080538113`). -/
def t_q : ℕ := 45560315531506369815346746415080538113

/-- The order of the scalar field, `2^254 + t_q`, as documented in the
`chip.rs` test (the scalar field `F_q = 2^254 + t_q`). -/
def q_scalar : ℕ := 2 ^ 254 + t_q

/-- Big-endian bit decomposition of a natural number into `w` bits.  The
most significant bit comes first, matching the `EccScalarVar` doc comment in
`chip.rs`: the bits are `[k_n, ..., k_0]` with
`scalar = k_0 + k_1 * 2 + ... + k_n * 2^n`. -/
def bitsBE : ℕ → ℕ → List Bool
  | 0, _ => []
  | w + 1, n => bitsBE w (n / 2) ++ [decide (n % 2 = 1)]

/-- Little-endian base-`H` window decomposition of a natural number into `w`
windows, matching the `EccScalarFixed` doc comment in `chip.rs`:
`scalar = k_0 + k_1 * (2^3) + ... + k_n * (2^3)^n`. -/
def windowsLE : ℕ → ℕ → List ℕ
  | 0, _ => []
  | w + 1, n => n % H :: windowsLE w (n / H)

/-- A scalar used for variable-base scalar multiplication (`EccScalarVar` in
`chip.rs`), with the cell machinery dropped: `value` is the known scalar and
`k_bits` holds the values assigned to the bit cells. -/
structure EccScalarVar where
  value : ℕ
  k_bits : List ℕ

/-- A full-width scalar used for fixed-base scalar multiplication
(`EccScalarFixed` in `chip.rs`): `k_bits` holds the little-endian window
digit cell values. -/
structure EccScalarFixed where
  value : ℕ
  k_bits : List ℕ

/-- A signed short scalar used for fixed-base scalar multiplication
(`EccScalarFixedShort` in `chip.rs`): a magnitude decomposed into windows
plus one separate boolean sign (`true` means negate). -/
structure EccScalarFixedShort where
  magnitude : ℕ
  sign : Bool
  k_bits : List ℕ

/-- Modelled from the spec: `witness_scalar_var::assign_region` is not under
`src/`.  Spec section 4.5: the scalar plus the fixed offset `t_q` is
decomposed into 255 big-endian bits, each range-constrained to `{0, 1}`. -/
def witness_scalar_var (k : ℕ) : EccScalarVar :=
  ⟨k, (bitsBE 255 (k + t_q)).map Bool.toNat⟩

/-- Modelled from the spec: `witness_scalar_fixed::assign_region` is not
under `src/`.  Spec section 4.5: the full-width scalar is decomposed into
little-endian 3-bit windows, each constrained to `[0, H)`. -/
def witness_scalar_fixed (k : ℕ) : EccScalarFixed :=
  ⟨k, windowsLE NUM_WINDOWS k⟩

/-- Modelled from the spec: `witness_scalar_fixed_short::assign_region` is
not under `src/`.  Spec section 4.5: a reduced bit-length magnitude is
decomposed into little-endian windows, plus one boolean sign cell. -/
def witness_scalar_fixed_short (m : ℕ) (s : Bool) : EccScalarFixedShort :=
  ⟨m, s, windowsLE NUM_WINDOWS_SHORT m⟩

/-- The double-and-add ladder over an additive group: bits are consumed
most-significant-first and each step combines a doubling with a conditional
addition of the base (spec section 4.6). -/
def mulLadder {G : Type} [AddCommGroup G] (bits : List ℕ) (base : G) : G :=
  bits.foldl (fun acc bit => 2 • acc + bit • base) 0

/-- Modelled from the spec: `mul::assign_region` is not under `src/`.  Spec
section 4.6: a double-and-add ladder over the shifted bit representation,
corrected by subtracting `[t_q] · base` so that the output is
`[k] · base`; the `chip.rs` test pins exactly this convention. -/
def mul {G : Type} [AddCommGroup G] (scalar : EccScalarVar) (base : G) : G :=
  mulLadder scalar.k_bits base - t_q • base

/-- Accumulation of the per-window points of fixed-base multiplication: the
window with digit `d` at weight `H^i` contributes `d • (H^i • base)`, and the
per-window points are summed with the complete (total) group addition
(spec section 4.8). -/
def mulFixedAcc {G : Type} [AddCommGroup G] : List ℕ → G → G
  | [], _ => 0
  | d :: ds, base => d • base + mulFixedAcc ds (H • base)

/-- Modelled from the spec: `mul_fixed::assign_region` is not under `src/`.
Spec section 4.8: per window, the digit selects the window's table point and
the points are accumulated with complete addition. -/
def mul_fixed {G : Type} [AddCommGroup G] (scalar : EccScalarFixed) (base : G) : G :=
  mulFixedAcc scalar.k_bits base

/-- Modelled from the spec: `mul_fixed_short::assign_region` is not under
`src/`.  Spec section 4.9: the unsigned accumulation over the short windows,
with the output negated exactly when the sign bit is set
(`y_out = -y_unsigned` when `sign = 1`, `x_out = x_unsigned` always). -/
def mul_fixed_short {G : Type} [AddCommGroup G] (scalar : EccScalarFixedShort) (base : G) : G :=
  if scalar.sign then -(mulFixedAcc scalar.k_bits base) else mulFixedAcc scalar.k_bits base

/-- The short Weierstrass curve `y^2 = x^3 + b`.  The doubling contract in
spec section 4.4 (`λ = 3x_p^2 / (2y_p)`) fixes `a₁ = a₂ = a₃ = a₄ = 0`. -/
def Wc (F : Type) [CommRing F] (b : F) : WeierstrassCurve.Affine F :=
  ⟨0, 0, 0, 0, b⟩

/-- Errors surfaced by the chip operations (spec section 7). -/
inductive EccError where
  | invalidPoint
  | synthesisError
deriving DecidableEq

/-- A curve point in affine coordinates with optional known values
(`EccPoint` in `chip.rs`, with the cells dropped and only the assigned
values kept). -/
structure EccPoint (F : Type) where
  x : Option F
  y : Option F
deriving DecidableEq

/-- Modelled from the spec: `witness_point::assign_region` and its gate are
not under `src/`.  Spec section 4.1: witnessing a concretely-valued pair
asserts that it satisfies the curve equation and fails with
`InvalidPointError` otherwise. -/
def witness_point {F : Type} [Field F] [DecidableEq F] (b : F) (value : Option (F × F)) :
    Except EccError (EccPoint F) :=
  match value with
  | none => .ok ⟨none, none⟩
  | some p =>
      if p.2 ^ 2 = p.1 ^ 3 + b then .ok ⟨some p.1, some p.2⟩
      else .error .invalidPoint

/-- Modelled from the spec: `add::assign_region` is not under `src/`.  Spec
section 4.2: incomplete addition of `P = (x_p, y_p)` and `Q = (x_q, y_q)`
via `λ = (y_q - y_p) / (x_q - x_p)`, `x_a = λ^2 - x_p - x_q`,
`y_a = λ (x_p - x_a) - y_p`. -/
def add {F : Type} [Field F] (p q : F × F) : F × F :=
  let lam := (q.2 - p.2) / (q.1 - p.1)
  let x_a := lam ^ 2 - p.1 - q.1
  (x_a, lam * (p.1 - x_a) - p.2)

/-- Modelled from the spec: `double::assign_region` is not under `src/`.
Spec section 4.4: `λ = 3x_p^2 / (2y_p)`, `x_a = λ^2 - 2x_p`,
`y_a = λ (x_p - x_a) - y_p`. -/
def double {F : Type} [Field F] (p : F × F) : F × F :=
  let lam := 3 * p.1 ^ 2 / (2 * p.2)
  let x_a := lam ^ 2 - 2 * p.1
  (x_a, lam * (p.1 - x_a) - p.2)

/-- Negation of an optional affine point (the identity is `none`): the
x-coordinate is kept and the y-coordinate is negated. -/
def negPt {F : Type} [Field F] : Option (F × F) → Option (F × F) :=
  Option.map fun p => (p.1, -p.2)

/-- Modelled from the spec: `add_complete::assign_region` is not under
`src/`.  Spec section 4.3: complete addition handles every input
combination, selecting among returning the non-identity operand, returning
the identity (`P = -Q`), doubling (`P = Q`), and generic addition. -/
def add_complete {F : Type} [Field F] [DecidableEq F] :
    Option (F × F) → Option (F × F) → Option (F × F)
  | none, q => q
  | p, none => p
  | some p, some q =>
      if p.1 = q.1 then
        if p.2 = -q.2 then none
        else some (double p)
      else some (add p q)

/-- Known affine coordinates of a nonsingular rational point (`none` for the
point at infinity, which has no affine encoding). -/
def toCoords {F : Type} [Field F] {W : WeierstrassCurve.Affine F} :
    W.Point → Option (F × F)
  | .zero => none
  | @WeierstrassCurve.Affine.Point.some _ _ _ x y _ => some (x, y)

/-- Search for a square root of a field element by scanning a list of
candidates (an enumeration of the field): the first `r` with `r * r = x`,
if any. -/
def sqrtList {F : Type} [Field F] [DecidableEq F] (elems : List F) (x : F) : Option F :=
  elems.find? fun r => decide (r * r = x)

/-- Modelled from the spec: the `z`/`u` table construction of the
`constants` module is not under `src/`.  For one window with digit
y-coordinates `ys` and one candidate offset `z`, produce the per-digit
square roots `u` of `y + z`, provided that every `-y + z` has no square
root among the candidates (spec section 4.7). -/
def tryWindowZ {F : Type} [Field F] [DecidableEq F] (elems : List F) (z : ℕ) :
    List F → Option (List F)
  | [] => some []
  | y :: rest =>
      match sqrtList elems (y + (z : F)), sqrtList elems (-y + (z : F)),
          tryWindowZ elems z rest with
      | some u, none, some us => some (u :: us)
      | _, _, _ => none

/-- Search increasing offsets `z`, starting at `z` with the given fuel, for
one that makes every `y + z` a square and every `-y + z` a non-square. -/
def findZFrom {F : Type} [Field F] [DecidableEq F] (elems : List F) (ys : List F) :
    ℕ → ℕ → Option (ℕ × List F)
  | _, 0 => none
  | z, fuel + 1 =>
      match tryWindowZ elems z ys with
      | some us => some (z, us)
      | none => findZFrom elems ys (z + 1) fuel

/-- Modelled from the spec: the per-window `z`/`u` search of the `constants`
module is not under `src/`.  Find the smallest offset `z < bound` resolving
the sign ambiguity of one window, together with the per-digit witnesses
`u`. -/
def find_zs_and_us {F : Type} [Field F] [DecidableEq F]
    (elems : List F) (ys : List F) (bound : ℕ) : Option (ℕ × List F) :=
  findZFrom elems ys 0 bound

/-- A fixed-base identifier: the name bytes of one of the five protocol
generators (`EccFixedPoints::name` in `chip.rs`, which also drives map
ordering and equality). -/
def BaseName : Type := List ℕ

instance : DecidableEq BaseName := by
  unfold BaseName
  infer_instance

instance : BEq BaseName := ⟨fun a b => decide (a = b)⟩

instance : LawfulBEq BaseName where
  eq_of_beq h := by simpa using (of_decide_eq_true h)
  rfl := by
    intro a
    simp [BEq.beq]

/-- The per-generator constant data consumed by `EccChip::load` in
`chip.rs`: the name, the per-window x-coordinates used for interpolation in
the two windowings, and the `Z`/`U` constants of the `constants` module.
The window x-coordinates and the digit tables stand in for the generator
data of the missing `constants` module. -/
structure FixedBaseData (F : Type) where
  name : BaseName
  windowXs : List (List F)
  windowXsShort : List (List F)
  Z : List ℕ
  Z_short : List ℕ
  U : List (List F)
  U_short : List (List F)

/-- Pointwise sum of two little-endian coefficient lists. -/
def polyAdd {F : Type} [Field F] : List F → List F → List F
  | [], q => q
  | p, [] => p
  | a :: p, b :: q => (a + b) :: polyAdd p q

/-- Scale a little-endian coefficient list by a constant. -/
def polyScale {F : Type} [Field F] (c : F) (p : List F) : List F :=
  p.map fun a => c * a

/-- Multiply a little-endian coefficient list by the linear factor
`X - r`. -/
def polyMulLinear {F : Type} [Field F] (r : F) (p : List F) : List F :=
  polyAdd (0 :: p) (polyScale (-r) p)

/-- The Lagrange basis polynomial through the given nodes that is 1 at `xi`
and 0 at every other node, as a little-endian coefficient list. -/
def lagrangeBasisPoly {F : Type} [Field F] [DecidableEq F] (nodes : List F) (xi : F) : List F :=
  nodes.foldl
    (fun acc xj => if xj = xi then acc else polyMulLinear xj (polyScale (1 / (xi - xj)) acc))
    [1]

/-- Modelled from the spec: `FixedBase::compute_lagrange_coeffs` of the
`constants` module is not under `src/`.  Spec section 4.7: the coefficients
of the unique polynomial interpolating the window's `H` possible
x-coordinates (Lagrange form), the window's x-coordinates being indexed by
the digit value. -/
def compute_lagrange_coeffs {F : Type} [Field F] [DecidableEq F] (xs : List F) : List F :=
  let nodes : List F := (List.range xs.length).map fun i => (i : F)
  xs.enum.foldl
    (fun acc p => polyAdd acc (polyScale p.2 (lagrangeBasisPoly nodes ((p.1 : F)))))
    []

/-- The precomputed fixed-base data (`EccLoaded` in `chip.rs`): six maps
keyed by the fixed-base identifier, modelled as association lists. -/
structure EccLoaded (F : Type) where
  lagrange_coeffs : List (BaseName × List (List F))
  lagrange_coeffs_short : List (BaseName × List (List F))
  z : List (BaseName × List ℕ)
  z_short : List (BaseName × List ℕ)
  u : List (BaseName × List (List F))
  u_short : List (BaseName × List (List F))

/-- The table precomputation `EccChip::load` from `chip.rs`: for each fixed
base, compute the full-width and short interpolation coefficients from the
generator constants and record the `Z`/`U` tables.  As in the source, the
layouter argument is ignored (`_layouter`); the interpolation itself is
modelled from the spec because `compute_lagrange_coeffs` is not under
`src/`. -/
def load {F L : Type} [Field F] [DecidableEq F] (_layouter : L)
    (bases : List (FixedBaseData F)) : EccLoaded F :=
  { lagrange_coeffs := bases.map fun b => (b.name, b.windowXs.map compute_lagrange_coeffs)
    lagrange_coeffs_short :=
      bases.map fun b => (b.name, b.windowXsShort.map compute_lagrange_coeffs)
    z := bases.map fun b => (b.name, b.Z)
    z_short := bases.map fun b => (b.name, b.Z_short)
    u := bases.map fun b => (b.name, b.U)
    u_short := bases.map fun b => (b.name, b.U_short) }

/-- A fixed-point handle (`EccFixedPoint` in `chip.rs`): the identifier plus
the optional table data found for it. -/
structure EccFixedPoint (F : Type) where
  fixed_point : BaseName
  lagrange_coeffs : Option (List (List F))
  lagrange_coeffs_short : Option (List (List F))
  z : Option (List ℕ)
  z_short : Option (List ℕ)
  u : Option (List (List F))
  u_short : Option (List (List F))

/-- Primality of 5, used to obtain the field instances of the small
concrete base fields the development is exercised on. -/
instance : Fact (Nat.Prime 5) := ⟨by norm_num⟩

/-- Primality of 7, used to obtain the field instances of the small
concrete base fields the development is exercised on. -/
instance : Fact (Nat.Prime 7) := ⟨by norm_num⟩

/-- The accessor `EccChip::get_fixed` from `chip.rs`: look up each of the
six tables for the requested base (each lookup returns an `Option`) and
always return `Ok`. -/
def get_fixed {F : Type} (loaded : EccLoaded F) (fixed_point : BaseName) :
    Except EccError (EccFixedPoint F) :=
  .ok
    ⟨fixed_point,
      loaded.lagrange_coeffs.lookup fixed_point,
      loaded.lagrange_coeffs_short.lookup fixed_point,
      loaded.z.lookup fixed_point,
      loaded.z_short.lookup fixed_point,
      loaded.u.lookup fixed_point,
      loaded.u_short.lookup fixed_point⟩

end Orchard

namespace Orchard

/-! Helper lemmas about the bit and window decompositions and the group
ladders built on them. -/

theorem length_bitsBE (w n : ℕ) : (bitsBE w n).length = w := by
  induction w generalizing n with
  | zero => rfl
  | succ w ih => simp [bitsBE, ih]

theorem mulLadder_concat {G : Type} [AddCommGroup G] (bits : List ℕ) (b : ℕ) (base : G) :
    mulLadder (bits ++ [b]) base = 2 • mulLadder bits base + b • base := by
  simp [mulLadder, List.foldl_append]

theorem mod_two_pow_succ (n w : ℕ) : n % 2 ^ (w + 1) = 2 * (n / 2 % 2 ^ w) + n % 2 := by
  rw [pow_succ', Nat.mod_mul]
  omega

theorem mod_eight_pow_succ (n w : ℕ) : n % 8 ^ (w + 1) = 8 * (n / 8 % 8 ^ w) + n % 8 := by
  rw [pow_succ', Nat.mod_mul]
  omega

theorem mulLadder_bitsBE {G : Type} [AddCommGroup G] (base : G) (w : ℕ) :
    ∀ n : ℕ, mulLadder ((bitsBE w n).map Bool.toNat) base = (n % 2 ^ w) • base := by
  induction w with
  | zero =>
      intro n
      simp [bitsBE, mulLadder, Nat.mod_one]
  | succ w ih =>
      intro n
      rw [bitsBE, List.map_append, List.map_singleton, mulLadder_concat, ih, smul_smul,
        ← add_smul]
      have hbit : (decide (n % 2 = 1)).toNat = n % 2 := by
        rcases Nat.mod_two_eq_zero_or_one n with h | h <;> simp [h]
      rw [hbit]
      congr 1
      rw [mod_two_pow_succ]

theorem foldl_bitsBE (w n : ℕ) :
    ((bitsBE w n).map Bool.toNat).foldl (fun acc b => 2 * acc + b) 0 = n % 2 ^ w := by
  induction w generalizing n with
  | zero => simp [bitsBE, Nat.mod_one]
  | succ w ih =>
      rw [bitsBE, List.map_append, List.map_singleton, List.foldl_append, ih]
      have hbit : (decide (n % 2 = 1)).toNat = n % 2 := by
        rcases Nat.mod_two_eq_zero_or_one n with h | h <;> simp [h]
      simp only [List.foldl_cons, List.foldl_nil, hbit]
      rw [mod_two_pow_succ]

theorem shifted_scalar_lt (k : ℕ) (hk : k < q_scalar) : k + t_q < 2 ^ 255 := by
  have h2 : t_q + t_q ≤ 2 ^ 254 := by decide
  have h3 : (2 : ℕ) ^ 255 = 2 ^ 254 + 2 ^ 254 := by
    rw [pow_succ, Nat.mul_two]
  unfold q_scalar at hk
  omega

theorem mulFixedAcc_windowsLE {G : Type} [AddCommGroup G] (w : ℕ) :
    ∀ (n : ℕ) (base : G), mulFixedAcc (windowsLE w n) base = (n % 8 ^ w) • base := by
  induction w with
  | zero =>
      intro n base
      simp [windowsLE, mulFixedAcc, Nat.mod_one]
  | succ w ih =>
      intro n base
      simp only [windowsLE, mulFixedAcc]
      rw [ih, smul_smul, ← add_smul]
      congr 1
      simp only [H]
      rw [mod_eight_pow_succ]
      omega

/-! Claims about scalar witnessing and the two scalar multiplications over a
group. -/

/-- C4: for every known scalar `k`, `witness_scalar_var k` produces exactly
255 bit witnesses in big-endian order, each constrained to `{0, 1}`, whose
big-endian recomposition equals `k` plus the fixed offset `t_q`. -/
theorem witness_scalar_var_k_bits (k : ℕ) :
    (witness_scalar_var k).k_bits = (bitsBE 255 (k + t_q)).map Bool.toNat := by
  rw [witness_scalar_var]

theorem witness_scalar_var_correct (k : ℕ) (hk : k < q_scalar) :
    (witness_scalar_var k).k_bits.length = 255 ∧
    (∀ b ∈ (witness_scalar_var k).k_bits, b = 0 ∨ b = 1) ∧
    (witness_scalar_var k).k_bits.foldl (fun acc b => 2 * acc + b) 0 = k + t_q := by
  refine ⟨?_, ?_, ?_⟩
  · simp [witness_scalar_var_k_bits, length_bitsBE]
  · intro b hb
    rw [witness_scalar_var_k_bits] at hb
    rw [List.mem_map] at hb
    obtain ⟨c, -, rfl⟩ := hb
    cases c <;> simp
  · rw [witness_scalar_var_k_bits, foldl_bitsBE, Nat.mod_eq_of_lt (shifted_scalar_lt k hk)]

/-- Witness for C4 at the concrete scalar `k = 1`. -/
theorem witness_scalar_var_correct_witness :
    1 < q_scalar ∧
    ((witness_scalar_var 1).k_bits.length = 255 ∧
      (∀ b ∈ (witness_scalar_var 1).k_bits, b = 0 ∨ b = 1) ∧
      (witness_scalar_var 1).k_bits.foldl (fun acc b => 2 * acc + b) 0 = 1 + t_q) :=
  ⟨by decide, witness_scalar_var_correct 1 (by decide)⟩

/-- C1: for every scalar `k` and every base point, variable-base scalar
multiplication of the witnessed scalar bits by the base returns the
reference group computation `[k] · base`. -/
theorem mul_correct {G : Type} [AddCommGroup G] (k : ℕ) (hk : k < q_scalar) (base : G) :
    mul (witness_scalar_var k) base = k • base := by
  unfold mul witness_scalar_var
  rw [mulLadder_bitsBE, Nat.mod_eq_of_lt (shifted_scalar_lt k hk), add_smul,
    add_sub_cancel_right]

/-- Witness for C1 at the concrete scalar `k = order − 1` over the group of
integers with base `1`. -/
theorem mul_correct_witness :
    q_scalar - 1 < q_scalar ∧
    mul (witness_scalar_var (q_scalar - 1)) (1 : ℤ) = (q_scalar - 1) • (1 : ℤ) :=
  ⟨by decide, mul_correct (q_scalar - 1) (by decide) 1⟩

/-- C2: for every fixed base and every scalar `k`, fixed-base scalar
multiplication of the witnessed scalar windows returns the reference group
computation `k · base`. -/
theorem mul_fixed_correct {G : Type} [AddCommGroup G] (k : ℕ) (hk : k < q_scalar) (base : G) :
    mul_fixed (witness_scalar_fixed k) base = k • base := by
  unfold mul_fixed witness_scalar_fixed
  rw [mulFixedAcc_windowsLE]
  have hlt : k < 8 ^ NUM_WINDOWS := lt_of_lt_of_le hk (by decide)
  rw [Nat.mod_eq_of_lt hlt]

/-- Witness for C2 at the concrete scalar `k = 0` over the group of
integers with base `1`. -/
theorem mul_fixed_correct_witness :
    0 < q_scalar ∧ mul_fixed (witness_scalar_fixed 0) (1 : ℤ) = 0 • (1 : ℤ) :=
  ⟨by decide, mul_fixed_correct 0 (by decide) 1⟩

end Orchard

namespace Orchard

/-! Coefficient lemmas for the modelled curve and helper facts about
nonsingular points. -/

theorem Wc_a₁ {F : Type} [CommRing F] (b : F) : (Wc F b).a₁ = 0 := rfl

theorem Wc_a₂ {F : Type} [CommRing F] (b : F) : (Wc F b).a₂ = 0 := rfl

theorem Wc_a₃ {F : Type} [CommRing F] (b : F) : (Wc F b).a₃ = 0 := rfl

theorem Wc_a₄ {F : Type} [CommRing F] (b : F) : (Wc F b).a₄ = 0 := rfl

theorem Wc_a₆ {F : Type} [CommRing F] (b : F) : (Wc F b).a₆ = b := rfl

theorem toCoords_neg {F : Type} [Field F] {b : F} (P : (Wc F b).Point) :
    toCoords (-P) = (toCoords P).map fun p => (p.1, -p.2) := by
  cases P with
  | zero => rfl
  | @some x y h =>
      rw [WeierstrassCurve.Affine.Point.neg_some]
      simp [toCoords, WeierstrassCurve.Affine.negY, Wc_a₁, Wc_a₃]

/-- C5: for affine points `P`, `Q` on the curve with `x_p ≠ x_q`, the
incomplete addition gadget output equals the group-law sum of the two
points: witnessing both as nonsingular rational points, their group sum has
exactly the coordinates `(λ² - x_p - x_q, λ (x_p - x_a) - y_p)` computed by
the gadget. -/
theorem add_correct {F : Type} [Field F] {b x₁ y₁ x₂ y₂ : F}
    (h₁ : (Wc F b).Nonsingular x₁ y₁) (h₂ : (Wc F b).Nonsingular x₂ y₂)
    (hx : x₁ ≠ x₂) :
    ∃ P Q : (Wc F b).Point,
      toCoords P = some (x₁, y₁) ∧ toCoords Q = some (x₂, y₂) ∧
      toCoords (P + Q) = some (add (x₁, y₁) (x₂, y₂)) := by
  refine ⟨WeierstrassCurve.Affine.Point.some h₁, WeierstrassCurve.Affine.Point.some h₂,
    rfl, rfl, ?_⟩
  have hs : (Wc F b).slope x₁ x₂ y₁ y₂ = (y₂ - y₁) / (x₂ - x₁) := by
    rw [WeierstrassCurve.Affine.slope_of_X_ne hx, ← neg_sub y₂ y₁, ← neg_sub x₂ x₁,
      neg_div_neg_eq]
  rw [@WeierstrassCurve.Affine.Point.add_of_X_ne F _ (Wc F b) x₁ x₂ y₁ y₂ h₁ h₂ hx]
  simp only [toCoords, Option.some.injEq, Prod.mk.injEq, Orchard.add,
    WeierstrassCurve.Affine.addX, WeierstrassCurve.Affine.addY,
    WeierstrassCurve.Affine.negAddY, WeierstrassCurve.Affine.negY,
    Wc_a₁, Wc_a₂, Wc_a₃, Wc_a₄, hs]
  constructor <;> ring

theorem curveP1_nonsingular : (Wc (ZMod 5) 1).Nonsingular 0 1 := by
  rw [WeierstrassCurve.Affine.nonsingular_iff, WeierstrassCurve.Affine.equation_iff]
  decide

theorem curveP2_nonsingular : (Wc (ZMod 5) 1).Nonsingular 2 2 := by
  rw [WeierstrassCurve.Affine.nonsingular_iff, WeierstrassCurve.Affine.equation_iff]
  decide

/-- Witness for C5 at the concrete points `(0, 1)` and `(2, 2)` on the
curve `y² = x³ + 1` over `ZMod 5`. -/
theorem add_correct_witness :
    ((Wc (ZMod 5) 1).Nonsingular 0 1 ∧ (Wc (ZMod 5) 1).Nonsingular 2 2 ∧
      (0 : ZMod 5) ≠ 2) ∧
    ∃ P Q : (Wc (ZMod 5) 1).Point,
      toCoords P = some ((0 : ZMod 5), (1 : ZMod 5)) ∧
      toCoords Q = some ((2 : ZMod 5), (2 : ZMod 5)) ∧
      toCoords (P + Q) =
        some (add ((0 : ZMod 5), (1 : ZMod 5)) ((2 : ZMod 5), (2 : ZMod 5))) :=
  ⟨⟨curveP1_nonsingular, curveP2_nonsingular, by decide⟩,
    add_correct curveP1_nonsingular curveP2_nonsingular (by decide)⟩

/-- C6: complete addition agrees with the group law on every input
combination: `addComplete(P, P) = double(P)` (on points of order greater
than two), `addComplete(P, -P)` is the identity, `addComplete(P, identity)`
returns `P`, and `addComplete(identity, identity)` is the identity. -/
theorem add_complete_cases {F : Type} [Field F] [DecidableEq F] (h2 : (2 : F) ≠ 0) :
    (∀ x y : F, y ≠ 0 →
      add_complete (some (x, y)) (some (x, y)) = some (double (x, y))) ∧
    (∀ p : Option (F × F), add_complete p (negPt p) = none) ∧
    (∀ p : Option (F × F), add_complete p none = p) ∧
    add_complete (none : Option (F × F)) none = none := by
  refine ⟨?_, ?_, ?_, rfl⟩
  · intro x y hy
    have hne : ¬(y = -y) := by
      intro hcon
      have h0 : (2 : F) * y = 0 := by
        rw [two_mul]
        nth_rewrite 2 [hcon]
        exact add_neg_cancel y
      rcases mul_eq_zero.mp h0 with h | h
      · exact h2 h
      · exact hy h
    simp [add_complete, hne]
  · intro p
    cases p with
    | none => rfl
    | some p =>
        obtain ⟨x, y⟩ := p
        simp [add_complete, negPt]
  · intro p
    cases p with
    | none => rfl
    | some p => rfl

/-- Witness for C6 over the field `ZMod 5`, where `2 ≠ 0`. -/
theorem add_complete_cases_witness :
    ((2 : ZMod 5) ≠ 0) ∧
    ((∀ x y : ZMod 5, y ≠ 0 →
        add_complete (some (x, y)) (some (x, y)) = some (double (x, y))) ∧
      (∀ p : Option (ZMod 5 × ZMod 5), add_complete p (negPt p) = none) ∧
      (∀ p : Option (ZMod 5 × ZMod 5), add_complete p none = p) ∧
      add_complete (none : Option (ZMod 5 × ZMod 5)) none = none) :=
  ⟨by decide, add_complete_cases (by decide)⟩

/-- C7: witnessing a concretely-valued coordinate pair succeeds, binding the
point to that value, if and only if the pair satisfies the curve equation;
a failing pair yields `InvalidPointError`. -/
theorem witness_point_correct {F : Type} [Field F] [DecidableEq F] (b x y : F) :
    (witness_point b (some (x, y)) = .ok ⟨some x, some y⟩ ↔ (Wc F b).Equation x y) ∧
    (¬(Wc F b).Equation x y → witness_point b (some (x, y)) = .error .invalidPoint) := by
  have he : (Wc F b).Equation x y ↔ y ^ 2 = x ^ 3 + b := by
    rw [WeierstrassCurve.Affine.equation_iff]
    simp [Wc]
  by_cases hc : y ^ 2 = x ^ 3 + b
  · exact ⟨by simp [witness_point, hc, he], fun hcon => absurd (he.mpr hc) hcon⟩
  · constructor
    · simp [witness_point, hc, he]
    · intro hcon
      simp [witness_point, hc]

/-- Witness for C7 at the concrete pair `(0, 1)` on the curve `y² = x³ + 1`
over `ZMod 5`. -/
theorem witness_point_correct_witness :
    (witness_point (1 : ZMod 5) (some (0, 1)) = .ok ⟨some 0, some 1⟩ ↔
      (Wc (ZMod 5) 1).Equation 0 1) ∧
    (¬(Wc (ZMod 5) 1).Equation 0 1 →
      witness_point (1 : ZMod 5) (some (0, 1)) = .error .invalidPoint) :=
  witness_point_correct 1 0 1

end Orchard

namespace Orchard

theorem witness_scalar_fixed_short_k_bits (m : ℕ) (s : Bool) :
    (witness_scalar_fixed_short m s).k_bits = windowsLE NUM_WINDOWS_SHORT m := by
  rw [witness_scalar_fixed_short]

theorem witness_scalar_fixed_short_sign (m : ℕ) (s : Bool) :
    (witness_scalar_fixed_short m s).sign = s := by
  rw [witness_scalar_fixed_short]

/-- C3: for every magnitude `m` representable in the short windowing, short
signed fixed-base multiplication returns `m · base` when the sign is clear
and `-(m · base)` when the sign is set; the known x-coordinate of the
output equals the unsigned accumulation's x-coordinate unconditionally and
the known y-coordinate is negated exactly when the sign is set. -/
theorem mul_fixed_short_correct {F : Type} [Field F] {b : F} (base : (Wc F b).Point)
    (m : ℕ) (hm : m < H ^ NUM_WINDOWS_SHORT) (sign : Bool) :
    mul_fixed_short (witness_scalar_fixed_short m sign) base =
      (if sign then -(m • base) else m • base) ∧
    toCoords (mul_fixed_short (witness_scalar_fixed_short m sign) base) =
      (toCoords (mul_fixed_short (witness_scalar_fixed_short m false) base)).map
        (fun p => (p.1, if sign then -p.2 else p.2)) := by
  have hmain : ∀ s : Bool, mul_fixed_short (witness_scalar_fixed_short m s) base =
      (if s then -(m • base) else m • base) := by
    intro s
    have hacc : mulFixedAcc (witness_scalar_fixed_short m s).k_bits base = m • base := by
      have hm8 : m < 8 ^ NUM_WINDOWS_SHORT := by simpa [H] using hm
      rw [witness_scalar_fixed_short_k_bits, mulFixedAcc_windowsLE,
        Nat.mod_eq_of_lt hm8]
    simp only [mul_fixed_short, witness_scalar_fixed_short_sign, hacc]
  refine ⟨hmain sign, ?_⟩
  rw [hmain sign, hmain false]
  cases sign with
  | false =>
      simp
  | true =>
      simp [toCoords_neg]

end Orchard

namespace Orchard

/-- Witness for C3 at the concrete magnitude `m = 0` with the sign set,
over the group of points of the curve `y² = x³ + 1` over `ZMod 5`. -/
theorem mul_fixed_short_correct_witness :
    (0 < H ^ NUM_WINDOWS_SHORT) ∧
    (mul_fixed_short (witness_scalar_fixed_short 0 true)
        (0 : (Wc (ZMod 5) 1).Point) =
      (if true then -((0 : ℕ) • (0 : (Wc (ZMod 5) 1).Point))
        else (0 : ℕ) • (0 : (Wc (ZMod 5) 1).Point)) ∧
    toCoords (mul_fixed_short (witness_scalar_fixed_short 0 true)
        (0 : (Wc (ZMod 5) 1).Point)) =
      (toCoords (mul_fixed_short (witness_scalar_fixed_short 0 false)
          (0 : (Wc (ZMod 5) 1).Point))).map
        (fun p => (p.1, if true then -p.2 else p.2))) :=
  ⟨by decide, @mul_fixed_short_correct (ZMod 5) _ 1 0 0 (by decide) true⟩

/-! Correctness of the per-window `z`/`u` search (claim C8). -/

theorem sqrtList_some {F : Type} [Field F] [DecidableEq F] {elems : List F} {x u : F}
    (h : sqrtList elems x = some u) : u * u = x := by
  have := List.find?_some h
  simpa using this

theorem sqrtList_none {F : Type} [Field F] [DecidableEq F] {elems : List F} {x : F}
    (hcov : ∀ r : F, r ∈ elems) (h : sqrtList elems x = none) : ¬IsSquare x := by
  rintro ⟨r, hr⟩
  have hn := List.find?_eq_none.mp h r (hcov r)
  simp only [decide_eq_true_eq] at hn
  exact hn hr.symm

theorem tryWindowZ_correct {F : Type} [Field F] [DecidableEq F] {elems : List F}
    (hcov : ∀ r : F, r ∈ elems) (z : ℕ) :
    ∀ ys us : List F, tryWindowZ elems z ys = some us →
      us.length = ys.length ∧
      ∀ p ∈ ys.zip us, p.2 ^ 2 = p.1 + (z : F) ∧ ¬IsSquare (-p.1 + (z : F)) := by
  intro ys
  induction ys with
  | nil =>
      intro us h
      simp only [tryWindowZ, Option.some.injEq] at h
      subst h
      simp
  | cons y rest ih =>
      intro us h
      cases e1 : sqrtList elems (y + (z : F)) with
      | none => simp [tryWindowZ, e1] at h
      | some u =>
          cases e2 : sqrtList elems (-y + (z : F)) with
          | some v => simp [tryWindowZ, e1, e2] at h
          | none =>
              cases e3 : tryWindowZ elems z rest with
              | none => simp [tryWindowZ, e1, e2, e3] at h
              | some us' =>
                  simp only [tryWindowZ, e1, e2, e3, Option.some.injEq] at h
                  subst h
                  obtain ⟨hlen, hrest⟩ := ih us' e3
                  refine ⟨by simp [hlen], ?_⟩
                  intro p hp
                  rcases List.mem_cons.mp hp with hp | hp
                  · subst hp
                    refine ⟨?_, sqrtList_none hcov e2⟩
                    rw [sq]
                    exact sqrtList_some e1
                  · exact hrest p hp

theorem findZFrom_some {F : Type} [Field F] [DecidableEq F] (elems ys : List F)
    (fuel : ℕ) :
    ∀ (z z' : ℕ) (us : List F), findZFrom elems ys z fuel = some (z', us) →
      tryWindowZ elems z' ys = some us := by
  induction fuel with
  | zero =>
      intro z z' us h
      simp [findZFrom] at h
  | succ fuel ih =>
      intro z z' us h
      cases e : tryWindowZ elems z ys with
      | some us' =>
          simp only [findZFrom, e, Option.some.injEq, Prod.mk.injEq] at h
          obtain ⟨h1, h2⟩ := h
          subst h1
          subst h2
          exact e
      | none =>
          simp only [findZFrom, e] at h
          exact ih (z + 1) z' us h

/-- C8: whenever the search for a window's offset succeeds, the table
entries it produces satisfy `y + z = u²` for every digit, and `-y + z` is a
non-square in the base field, so the sign is resolved deterministically
from the digit alone. -/
theorem find_zs_and_us_correct {F : Type} [Field F] [DecidableEq F]
    {elems ys us : List F} {bound z : ℕ}
    (hcov : ∀ r : F, r ∈ elems)
    (h : find_zs_and_us elems ys bound = some (z, us)) :
    us.length = ys.length ∧
    ∀ p ∈ ys.zip us, p.2 ^ 2 = p.1 + (z : F) ∧ ¬IsSquare (-p.1 + (z : F)) :=
  tryWindowZ_correct hcov z ys us (findZFrom_some elems ys bound 0 z us h)

/-- Witness for C8 on a window with the single y-coordinate `3` over
`ZMod 7`, where the search returns `z = 1` with `u = 2`. -/
theorem find_zs_and_us_correct_witness :
    ((∀ r : ZMod 7, r ∈ ([0, 1, 2, 3, 4, 5, 6] : List (ZMod 7))) ∧
      find_zs_and_us ([0, 1, 2, 3, 4, 5, 6] : List (ZMod 7)) [3] 5 = some (1, [2])) ∧
    (([2] : List (ZMod 7)).length = ([3] : List (ZMod 7)).length ∧
      ∀ p ∈ ([3] : List (ZMod 7)).zip ([2] : List (ZMod 7)),
        p.2 ^ 2 = p.1 + ((1 : ℕ) : ZMod 7) ∧ ¬IsSquare (-p.1 + ((1 : ℕ) : ZMod 7))) :=
  ⟨⟨by decide, by decide⟩,
    @find_zs_and_us_correct (ZMod 7) _ _ [0, 1, 2, 3, 4, 5, 6] [3] [2] 5 1
      (by decide) (by decide)⟩

/-- C9: the fixed-base table precomputation is a pure, deterministic
function of the generator constants: it does not depend on the layouter
argument at all (two invocations with arbitrary, even differently-typed,
layouters yield identical coefficients, `z` constants and `u` witnesses). -/
theorem load_deterministic {F L₁ L₂ : Type} [Field F] [DecidableEq F]
    (bases : List (FixedBaseData F)) (l₁ : L₁) (l₂ : L₂) :
    load l₁ bases = load l₂ bases := rfl

/-- C10: `get_fixed` is total and never returns an error: every request
returns `Ok`, and when the loaded tables contain no entry for the requested
base the returned handle carries `none` in every table field. -/
theorem get_fixed_total {F : Type} (loaded : EccLoaded F) (fp : BaseName)
    (h₁ : loaded.lagrange_coeffs.lookup fp = none)
    (h₂ : loaded.lagrange_coeffs_short.lookup fp = none)
    (h₃ : loaded.z.lookup fp = none)
    (h₄ : loaded.z_short.lookup fp = none)
    (h₅ : loaded.u.lookup fp = none)
    (h₆ : loaded.u_short.lookup fp = none) :
    (∀ (loaded' : EccLoaded F) (fp' : BaseName),
      ∃ r : EccFixedPoint F, get_fixed loaded' fp' = .ok r) ∧
    get_fixed loaded fp = .ok ⟨fp, none, none, none, none, none, none⟩ := by
  refine ⟨fun loaded' fp' => ⟨_, rfl⟩, ?_⟩
  rw [get_fixed, h₁, h₂, h₃, h₄, h₅, h₆]

/-- Witness for C10 on an empty table set and the request `[0]`. -/
theorem get_fixed_total_witness :
    ((⟨[], [], [], [], [], []⟩ : EccLoaded ℕ).lagrange_coeffs.lookup
        ([0] : BaseName) = none) ∧
    ((∀ (loaded' : EccLoaded ℕ) (fp' : BaseName),
        ∃ r : EccFixedPoint ℕ, get_fixed loaded' fp' = .ok r) ∧
      get_fixed (⟨[], [], [], [], [], []⟩ : EccLoaded ℕ) ([0] : BaseName) =
        .ok ⟨([0] : BaseName), none, none, none, none, none, none⟩) :=
  ⟨rfl, get_fixed_total ⟨[], [], [], [], [], []⟩ [0] rfl rfl rfl rfl rfl rfl⟩

end Orchard
